import Mathlib

/-!
Verification of the model-matching engine of the MLP-lookup app
(`src/app.py`).

Python strings are embedded as `List Char` (`Str`).  `str.strip` becomes
`strip` (drop leading/trailing whitespace), `str.upper` becomes `upper`
(ASCII case map), and the pandas dataframe pipeline of the
Find-MLPs handler is embedded as explicit list-processing functions:

  * `load_catalog`    — app.py lines 12-18 (read_csv + fillna + Model check);
  * `parse_models`    — app.py lines 58-75 (split / trim / dedup);
  * `exactMerge`      — app.py lines 87-91 (left merge of the query frame
                        with the catalog on the normalized `_key`);
  * `containsStep`    — app.py lines 94-110 (the `allow_contains` fallback);
  * `finalize`        — app.py lines 112-117 (display model and status);
  * `resolve`         — the whole handler pipeline.

A left merge on a key that matches several rows of the right table
produces one output row per matching right row; `exactMerge` reproduces
this with `flatMap`.  Missing columns are tracked by the `hasMLP` /
`hasDescr` flags; the Python exceptions the pipeline can raise
(ValueError in `load_catalog`, KeyError when reading a missing MLP
column, AttributeError when the status step calls apply on the scalar
default) are embedded as the `PyErr` error type of an `Except`.
-/

namespace MLP

/-- A Python string, embedded as its list of characters. -/
abbrev Str := List Char

/-- Whitespace test used by Python `str.strip`. -/
def isSpace (c : Char) : Bool := c.isWhitespace

/-- Python `str.strip()`: drop leading and trailing whitespace. -/
def strip (s : Str) : Str :=
  ((s.dropWhile isSpace).reverse.dropWhile isSpace).reverse

/-- Python `str.upper()` (ASCII case map). -/
def upper (s : Str) : Str := s.map Char.toUpper

/-- The normalized matching key of app.py line 17 and line 88:
`strip` then `upper`. -/
def normKey (s : Str) : Str := upper (strip s)

/-- Python `needle in hay` / `Series.str.contains(re.escape(needle))`:
literal substring containment. -/
def strContainsSub : Str → Str → Bool
  | _, [] => true
  | [], _ :: _ => false
  | h :: t, n :: ns => (n :: ns).isPrefixOf (h :: t) || strContainsSub t (n :: ns)

/-- One catalog row after `load_catalog`: the `Model`, `MLP` and
`Description` cells (blank-filled strings; the `mlp`/`descr` fields are
meaningful only when the corresponding column exists). -/
structure CatRow where
  model : Str
  mlp : Str
  descr : Str
deriving DecidableEq, Repr

/-- The loaded catalog dataframe: which optional columns exist, and the
rows.  The `Model` column always exists (checked by `load_catalog`). -/
structure Catalog where
  hasMLP : Bool
  hasDescr : Bool
  rows : List CatRow
deriving DecidableEq, Repr

/-- The raw tabular source of the catalog (`products.csv` after
`read_csv` with string dtype and blank fill): named columns and blank-filled cell
rows aligned with the column list. -/
structure RawTable where
  cols : List Str
  rows : List (List Str)
deriving DecidableEq, Repr

/-- The Python exceptions the embedded pipeline can raise. -/
inductive PyErr where
  /-- app.py line 16: the ValueError raised when the Model column is absent. -/
  | valueErrorModelColumn
  /-- app.py line 95: reading the MLP column of `res` when the catalog has
  no MLP column raises KeyError. -/
  | keyErrorMLP
  /-- app.py line 117: with no MLP column, the dataframe `get` returns the
  scalar empty-string default, which has no `apply` method, raising
  AttributeError. -/
  | attributeErrorStrApply
deriving DecidableEq, Repr

/-- The required catalog column name (app.py line 15). -/
def modelCol : Str := "Model".toList

/-- The optional MLP column name (app.py lines 95, 107, 117). -/
def mlpCol : Str := "MLP".toList

/-- The optional description column name (app.py line 107). -/
def descrCol : Str := "Description".toList

/-- Read one cell of a row by column name; a missing column blank-fills
to the empty string. -/
def getCell (cols : List Str) (row : List Str) (name : Str) : Str :=
  match cols.findIdx? (fun c => c == name) with
  | some i => row.getD i []
  | none => []

/-- app.py lines 12-18: `load_catalog`.  Fails with `ValueError` when the
(case-sensitively named) `Model` column is absent; otherwise keeps every
row.  The normalized `_key` column of line 17 is recomputed on demand by
`normKey` instead of being stored. -/
def load_catalog (src : RawTable) : Except PyErr Catalog :=
  if src.cols.contains modelCol then
    .ok { hasMLP := src.cols.contains mlpCol
          hasDescr := src.cols.contains descrCol
          rows := src.rows.map (fun r =>
            ⟨getCell src.cols r modelCol, getCell src.cols r mlpCol,
             getCell src.cols r descrCol⟩) }
  else
    .error .valueErrorModelColumn

/-- The delimiter class of the regex at app.py line 62: newline, comma,
tab, semicolon (the raw string holds two literal newline characters, a
comma, a tab and a semicolon). -/
def isDelim (c : Char) : Bool := c == '\n' || c == ',' || c == '\t' || c == ';'

/-- Embeds `re.split` on the delimiter class: split into pieces, keeping
empty pieces (consecutive delimiters yield empty strings, later dropped). -/
def splitDelims : Str → List Str
  | [] => [[]]
  | c :: cs =>
    if isDelim c then [] :: splitDelims cs
    else
      match splitDelims cs with
      | [] => [[c]]
      | p :: ps => (c :: p) :: ps

/-- app.py lines 65-74: the token loop of `parse_models`.  `seen` is the
set of normalized keys already emitted. -/
def dedupTokens : List Str → List Str → List Str
  | [], _ => []
  | t :: ts, seen =>
    let t2 := strip t
    if t2 = [] then dedupTokens ts seen
    else if seen.contains (upper t2) then dedupTokens ts seen
    else t2 :: dedupTokens ts (upper t2 :: seen)

/-- app.py lines 58-75: `parse_models`. -/
def parse_models (raw : Str) : List Str :=
  if strip raw = [] then [] else dedupTokens (splitDelims raw) []

/-- One row of the merged result frame `res`: the original input token
`Model_in`, its `_key`, and the joined `Model`/`MLP`/`Description` cells
(`none` embeds pandas `NaN` from an unmatched left join). -/
structure FRow where
  modelIn : Str
  key : Str
  model : Option Str
  mlp : Option Str
  descr : Option Str
deriving DecidableEq, Repr

/-- The merged result frame together with which of the optional columns
it has. -/
structure Frame where
  hasMLP : Bool
  hasDescr : Bool
  rows : List FRow
deriving DecidableEq, Repr

/-- The rows the left merge of app.py line 91 produces for one query
token: one row per catalog row with an equal normalized key (in catalog
order), or a single all-NaN row when none matches. -/
def exactMergeRow (cat : Catalog) (m : Str) : List FRow :=
  let k := normKey m
  let hits := cat.rows.filter (fun r => normKey r.model == k)
  if hits.isEmpty then [⟨m, k, none, none, none⟩]
  else hits.map (fun r =>
    ⟨m, k, some r.model,
     if cat.hasMLP then some r.mlp else none,
     if cat.hasDescr then some r.descr else none⟩)

/-- app.py lines 87-91: build the query frame and left-merge it with the
catalog on `_key`. -/
def exactMerge (models : List Str) (cat : Catalog) : Frame :=
  ⟨cat.hasMLP, cat.hasDescr, models.flatMap (exactMergeRow cat)⟩

/-- app.py line 95: a result cell counts as missing when it is `NaN` or
blank after `strip`. -/
def mlpMissing : Option Str → Bool
  | none => true
  | some s => strip s == []

/-- Embeds pandas `Series.unique`: keep the first occurrence of each
value, in order (accumulator form). -/
def uniqueFirstAux : List Str → List Str → List Str
  | [], _ => []
  | a :: l, seen =>
    if seen.contains a then uniqueFirstAux l seen
    else a :: uniqueFirstAux l (a :: seen)

/-- Embeds pandas `Series.unique` on a list of keys. -/
def uniqueFirst (l : List Str) : List Str := uniqueFirstAux l []

/-- app.py line 97: the unique `_key`s of the rows whose MLP is missing. -/
def missingKeysOf (fr : Frame) : List Str :=
  uniqueFirst ((fr.rows.filter (fun r => mlpMissing r.mlp)).map (fun r => r.key))

/-- app.py line 103: the first catalog row (in row order) whose uppercased
`Model` contains the key as a literal substring. -/
def containsHit (cat : Catalog) (key : Str) : Option CatRow :=
  cat.rows.find? (fun r => strContainsSub (upper r.model) key)

/-- One row of `contains_df` (app.py line 107). -/
structure CRow where
  key : Str
  model : Str
  mlp : Str
  descr : Str
deriving DecidableEq, Repr

/-- app.py lines 101-107: build `contains_rows` for the missing keys; a
key with no hit contributes no row.  The per-row `get` calls with an
empty-string default blank-fill absent catalog columns. -/
def containsRowsOf (cat : Catalog) (fr : Frame) : List CRow :=
  (missingKeysOf fr).filterMap (fun k =>
    (containsHit cat k).map (fun r =>
      ⟨k, r.model,
       if cat.hasMLP then r.mlp else [],
       if cat.hasDescr then r.descr else []⟩))

/-- app.py lines 94-110: the `allow_contains` fallback.  Reading
Reading the MLP column of `res` when it is absent raises KeyError.  When some rows
are missing and some missing key has a contains hit, the code drops the
`Model`/`MLP`/`Description` columns of the WHOLE frame and left-merges
with `contains_df` on `_key` — so rows whose key is not in `contains_df`
(including rows the exact merge had resolved) come back all-NaN. -/
def containsStep (cat : Catalog) (fr : Frame) : Except PyErr Frame :=
  if !fr.hasMLP then .error .keyErrorMLP
  else if (fr.rows.filter (fun r => mlpMissing r.mlp)).isEmpty then .ok fr
  else
    let containsRows := containsRowsOf cat fr
    if containsRows.isEmpty then .ok fr
    else .ok ⟨true, true, fr.rows.flatMap (fun q =>
      let hits := containsRows.filter (fun c => c.key == q.key)
      if hits.isEmpty then [⟨q.modelIn, q.key, none, none, none⟩]
      else hits.map (fun c => ⟨q.modelIn, q.key, some c.model, some c.mlp, some c.descr⟩))⟩

/-- The status string OK. -/
def statusOK : Str := "OK".toList

/-- The status string Not-found. -/
def statusNotFound : Str := "Not found".toList

/-- app.py line 117: the status lambda applied to one MLP cell. -/
def statusOf : Option Str → Str
  | none => statusNotFound
  | some s => if strip s == [] then statusNotFound else statusOK

/-- One row of the displayed/exported result table. -/
structure ResultEntry where
  model : Str
  mlp : Option Str
  descr : Option Str
  status : Str
deriving DecidableEq, Repr

/-- app.py lines 112-117: display model (catalog `Model` where bound, else
the input token) and per-row status.  Without an `MLP` column,
the dataframe `get` returns the scalar empty-string default, and
calling apply on it raises AttributeError. -/
def finalize (fr : Frame) : Except PyErr (List ResultEntry) :=
  if !fr.hasMLP then .error .attributeErrorStrApply
  else .ok (fr.rows.map (fun r =>
    ⟨r.model.getD r.modelIn, r.mlp, r.descr, statusOf r.mlp⟩))

/-- The handler pipeline up to (not including) the display/status step:
exact merge, then the optional contains fallback. -/
def resolveFrame (models : List Str) (cat : Catalog) (allowContains : Bool) :
    Except PyErr Frame :=
  if allowContains then containsStep cat (exactMerge models cat)
  else .ok (exactMerge models cat)

/-- app.py lines 87-117: the whole Find-MLPs pipeline for a list of
query tokens. -/
def resolve (models : List Str) (cat : Catalog) (allowContains : Bool) :
    Except PyErr (List ResultEntry) :=
  (resolveFrame models cat allowContains).bind finalize

/-- The trimmed, non-empty tokens of the raw input, in order, duplicates
still present: the token stream `parse_models` deduplicates. -/
def cleanTokens (raw : Str) : List Str :=
  ((splitDelims raw).map strip).filter (fun t => !(t == []))

/-- Modelled from the spec: deduplicate a token stream by uppercased
form, keeping the first surface form of each key (the declarative
description of the dedup loop, to be compared with `dedupTokens`). -/
def keepFirst : List Str → List Str
  | [] => []
  | t :: ts => t :: keepFirst (ts.filter (fun u => !(upper u == upper t)))
termination_by l => l.length
decreasing_by
  simp only [List.length_cons]
  exact Nat.lt_succ_of_le (List.length_filter_le _ _)

/-- The dedup loop of `parse_models` restricted to already-clean tokens
(structural companion of `keepFirst`). -/
def keepFirstSeen : List Str → List Str → List Str
  | [], _ => []
  | a :: l, seen =>
    if seen.contains (upper a) then keepFirstSeen l seen
    else a :: keepFirstSeen l (upper a :: seen)

/-- Example catalog for the contains-fallback dropout: an exactly
matching row and a row that only a contains scan finds. -/
def catC1 : Catalog :=
  ⟨true, true, [⟨"PRD-1".toList, "M1".toList, "D1".toList⟩,
    ⟨"XQX".toList, "M2".toList, "D2".toList⟩]⟩

/-- Example catalog with two rows whose models normalize to the same key. -/
def catC2dup : Catalog :=
  ⟨true, true, [⟨"A".toList, "M1".toList, "D1".toList⟩,
    ⟨"a".toList, "M2".toList, "D2".toList⟩]⟩

/-- Example duplicate-free single-row catalog. -/
def catC2w : Catalog := ⟨true, true, [⟨"A".toList, "M1".toList, "D1".toList⟩]⟩

/-- Example catalog with two rows whose models normalize to the same key
(second copy, for the duplicate-shadowing claim). -/
def catC3dup : Catalog :=
  ⟨true, true, [⟨"B".toList, "M1".toList, "D1".toList⟩,
    ⟨"b".toList, "M2".toList, "D2".toList⟩]⟩

/-- Example catalog where the exactly matching row has a blank MLP and an
earlier row matches by substring. -/
def catC4x : Catalog :=
  ⟨true, true, [⟨"XAX".toList, "M9".toList, "D9".toList⟩,
    ⟨"A".toList, [], []⟩]⟩

/-- Example catalog whose only row has a whitespace-only MLP. -/
def catC5w : Catalog := ⟨true, true, [⟨"A".toList, " ".toList, []⟩]⟩

/-- Example catalog where the exactly matching row has a whitespace-only
MLP and an earlier row matches by substring. -/
def catC5x : Catalog :=
  ⟨true, true, [⟨"YBY".toList, "M7".toList, "D7".toList⟩,
    ⟨"B".toList, " ".toList, []⟩]⟩

/-- Example raw catalog source with only a Model column. -/
def srcC6 : RawTable := ⟨["Model".toList], [["PRD-1".toList]]⟩

/-- The catalog `load_catalog` builds from `srcC6`. -/
def catC6 : Catalog := ⟨false, false, [⟨"PRD-1".toList, [], []⟩]⟩

/-- Example duplicate-free single-row catalog for the order claim. -/
def catC8w : Catalog := ⟨true, true, [⟨"A".toList, "M1".toList, "D1".toList⟩]⟩

/-- Example raw catalog source whose model column is named in lower
case. -/
def srcC10 : RawTable := ⟨["model".toList], []⟩

section Lemmas

/-- Dropping a satisfied prefix twice is the same as dropping it once. -/
theorem dropWhile_idem (p : Char → Bool) (l : Str) :
    (l.dropWhile p).dropWhile p = l.dropWhile p := by
  induction l with
  | nil => rfl
  | cons a l ih =>
      by_cases h : p a
      · simp [List.dropWhile_cons, h, ih]
      · simp [List.dropWhile_cons, h]

/-- The head of a `dropWhile` result falsifies the predicate. -/
theorem dropWhile_head_false (p : Char → Bool) (l : Str) (a : Char) (t : Str)
    (h : l.dropWhile p = a :: t) : p a = false := by
  induction l with
  | nil => simp at h
  | cons b l ih =>
      by_cases hb : p b
      · rw [List.dropWhile_cons_of_pos hb] at h; exact ih h
      · rw [List.dropWhile_cons_of_neg hb] at h
        cases h; simpa using hb

/-- `strip s` is a prefix of the result of dropping the leading
whitespace of `s`. -/
theorem strip_prefix_core (s : Str) : strip s <+: s.dropWhile isSpace := by
  have h : ((s.dropWhile isSpace).reverse.dropWhile isSpace : Str) <:+
      (s.dropWhile isSpace).reverse := List.dropWhile_suffix isSpace
  have h2 := List.reverse_prefix.mpr h
  rw [List.reverse_reverse] at h2
  exact h2

/-- `strip` has no leading whitespace left to drop. -/
theorem dropWhile_strip (s : Str) : (strip s).dropWhile isSpace = strip s := by
  cases hc : s.dropWhile isSpace with
  | nil =>
      have h := strip_prefix_core s
      rw [hc] at h
      have hnil : strip s = [] := List.prefix_nil.mp h
      simp [hnil]
  | cons a t =>
      have ha : isSpace a = false := dropWhile_head_false isSpace s a t hc
      have h := strip_prefix_core s
      rw [hc] at h
      cases hk : strip s with
      | nil => rfl
      | cons b v =>
          rw [hk] at h
          rcases h with ⟨u, hu⟩
          have hb : b = a := by
            have := congrArg List.head? hu
            simpa using this
          exact List.dropWhile_cons_of_neg (by rw [hb]; simp [ha])

/-- `strip` is idempotent. -/
theorem strip_strip (s : Str) : strip (strip s) = strip s := by
  have h1 : (strip s).reverse = ((s.dropWhile isSpace).reverse).dropWhile isSpace := by
    simp [strip]
  calc strip (strip s)
      = (((strip s).dropWhile isSpace).reverse.dropWhile isSpace).reverse := rfl
    _ = ((strip s).reverse.dropWhile isSpace).reverse := by rw [dropWhile_strip]
    _ = ((((s.dropWhile isSpace).reverse).dropWhile isSpace).dropWhile isSpace).reverse := by
          rw [h1]
    _ = (((s.dropWhile isSpace).reverse).dropWhile isSpace).reverse := by
          rw [dropWhile_idem]
    _ = strip s := by rw [← h1]; simp

/-- `strip` is the empty string exactly when every character is
whitespace. -/
theorem strip_eq_nil_iff (s : Str) :
    strip s = [] ↔ ∀ c ∈ s, isSpace c = true := by
  unfold strip
  rw [List.reverse_eq_nil_iff, List.dropWhile_eq_nil_iff]
  constructor
  · intro h c hc
    have hsplit := List.takeWhile_append_dropWhile isSpace s
    rw [← hsplit] at hc
    rcases List.mem_append.mp hc with h1 | h2
    · exact List.mem_takeWhile_imp h1
    · exact h c (List.mem_reverse.mpr h2)
  · intro h c hc
    have : c ∈ s.dropWhile isSpace := List.mem_reverse.mp hc
    exact h c ((List.dropWhile_suffix isSpace).subset this)

/-- Every character of every piece of `splitDelims l` is a character of
`l`. -/
theorem splitDelims_chars (l : Str) :
    ∀ p ∈ splitDelims l, ∀ c ∈ p, c ∈ l := by
  induction l with
  | nil =>
      intro p hp c hc
      simp [splitDelims] at hp
      simp [hp] at hc
  | cons a t ih =>
      intro p hp c hc
      rw [splitDelims] at hp
      by_cases ha : isDelim a
      · rw [if_pos ha] at hp
        rcases List.mem_cons.mp hp with h1 | h2
        · simp [h1] at hc
        · exact List.mem_cons_of_mem a (ih p h2 c hc)
      · rw [if_neg ha] at hp
        cases hs : splitDelims t with
        | nil =>
            rw [hs] at hp
            simp at hp
            rw [hp] at hc
            simp at hc
            simp [hc]
        | cons q qs =>
            rw [hs] at hp
            rcases List.mem_cons.mp hp with h1 | h2
            · rw [h1] at hc
              rcases List.mem_cons.mp hc with h3 | h4
              · simp [h3]
              · exact List.mem_cons_of_mem a (ih q (hs ▸ List.mem_cons_self q qs) c h4)
            · exact List.mem_cons_of_mem a (ih p (hs ▸ List.mem_cons_of_mem q h2) c hc)

/-- A whitespace-only input has no clean tokens. -/
theorem cleanTokens_eq_nil (raw : Str) (h : strip raw = []) :
    cleanTokens raw = [] := by
  have hall : ∀ c ∈ raw, isSpace c = true := (strip_eq_nil_iff raw).mp h
  unfold cleanTokens
  rw [List.filter_eq_nil_iff]
  intro t ht
  rcases List.mem_map.mp ht with ⟨p, hp, hpt⟩
  have : strip p = [] := by
    rw [strip_eq_nil_iff]
    intro c hc
    exact hall c (splitDelims_chars raw p hp c hc)
  simp [← hpt, this]

/-- Equation lemma: `keepFirst` on the empty list. -/
theorem keepFirst_nil : keepFirst [] = [] := by
  rw [keepFirst.eq_def]

/-- Equation lemma: `keepFirst` on a cons. -/
theorem keepFirst_cons (t : Str) (ts : List Str) :
    keepFirst (t :: ts) = t :: keepFirst (ts.filter (fun u => !(upper u == upper t))) := by
  rw [keepFirst.eq_def]

/-- The dedup loop of `parse_models` first cleans the token stream: it
equals `keepFirstSeen` on the trimmed non-blank tokens. -/
theorem dedupTokens_eq_keepFirstSeen (ts : List Str) :
    ∀ seen : List Str,
      dedupTokens ts seen =
        keepFirstSeen ((ts.map strip).filter (fun t => !(t == []))) seen := by
  induction ts with
  | nil => intro seen; rfl
  | cons t ts ih =>
      intro seen
      rw [dedupTokens]
      by_cases h0 : strip t = []
      · have e0 : (!(strip t == [])) = false := by simp [h0]
        rw [List.map_cons, List.filter_cons, e0, if_neg Bool.false_ne_true]
        simp only [h0, if_pos rfl]
        exact ih seen
      · have e0 : (!(strip t == [])) = true := by simp [h0]
        rw [List.map_cons, List.filter_cons, e0, if_pos rfl, keepFirstSeen]
        simp only [if_neg h0]
        by_cases h1 : seen.contains (upper (strip t)) = true
        · rw [if_pos h1, if_pos h1]
          exact ih seen
        · rw [if_neg h1, if_neg h1]
          rw [ih (upper (strip t) :: seen)]

/-- `keepFirstSeen` is `keepFirst` after discarding the tokens whose key
is already in `seen`. -/
theorem keepFirstSeen_eq_keepFirst (l : List Str) :
    ∀ seen : List Str,
      keepFirstSeen l seen =
        keepFirst (l.filter (fun u => !(seen.contains (upper u)))) := by
  induction l with
  | nil => intro seen; rw [keepFirstSeen]; simp [keepFirst_nil]
  | cons a l ih =>
      intro seen
      rw [keepFirstSeen, List.filter_cons]
      by_cases h1 : seen.contains (upper a) = true
      · have e1 : (!(seen.contains (upper a))) = false := by rw [h1]; rfl
        rw [if_pos h1, e1, if_neg Bool.false_ne_true]
        exact ih seen
      · have hb : seen.contains (upper a) = false := Bool.eq_false_iff.mpr h1
        have e1 : (!(seen.contains (upper a))) = true := by rw [hb]; rfl
        rw [if_neg h1, e1, if_pos rfl, keepFirst_cons]
        rw [ih (upper a :: seen), List.filter_filter]
        refine congrArg _ (congrArg keepFirst ?_)
        apply List.filter_congr
        intro u _
        rw [List.contains_cons, Bool.not_or, Bool.and_comm]

/-- `parse_models` is exactly the declarative keep-first dedup of the
clean token stream. -/
theorem parse_eq_keepFirst (raw : Str) :
    parse_models raw = keepFirst (cleanTokens raw) := by
  unfold parse_models
  by_cases h : strip raw = []
  · rw [if_pos h, cleanTokens_eq_nil raw h, keepFirst_nil]
  · rw [if_neg h, dedupTokens_eq_keepFirstSeen (splitDelims raw) [],
      keepFirstSeen_eq_keepFirst]
    unfold cleanTokens
    refine congrArg keepFirst ?_
    rw [List.filter_eq_self]
    intro a _
    rfl

/-- `keepFirst` only keeps tokens of the input. -/
theorem keepFirst_subset (l : List Str) : ∀ a ∈ keepFirst l, a ∈ l := by
  induction l using keepFirst.induct with
  | case1 => intro a ha; rw [keepFirst_nil] at ha; simp at ha
  | case2 t ts ih =>
      intro a ha
      rw [keepFirst_cons] at ha
      rcases List.mem_cons.mp ha with h | h
      · simp [h]
      · exact List.mem_cons_of_mem t ((List.filter_sublist _).subset (ih a h))

/-- No two outputs of `keepFirst` share an uppercased form. -/
theorem keepFirst_upper_nodup (l : List Str) :
    ((keepFirst l).map upper).Nodup := by
  induction l using keepFirst.induct with
  | case1 => rw [keepFirst_nil]; simp
  | case2 t ts ih =>
      rw [keepFirst_cons, List.map_cons]
      refine List.nodup_cons.mpr ⟨?_, ih⟩
      intro hmem
      rcases List.mem_map.mp hmem with ⟨a, ha, hua⟩
      have haf := keepFirst_subset _ a ha
      have := (List.mem_filter.mp haf).2
      rw [hua] at this
      simp at this

/-- Comparisons of first-occurrence positions survive filtering, for
elements the filter keeps. -/
theorem indexOf_filter_lt (q : Str → Bool) (l : List Str) (a b : Str)
    (ha : q a = true) (hb : q b = true)
    (h : (l.filter q).indexOf a < (l.filter q).indexOf b) :
    l.indexOf a < l.indexOf b := by
  induction l with
  | nil => simp at h
  | cons x l ih =>
      by_cases hx : q x = true
      · rw [List.filter_cons, if_pos hx] at h
        by_cases hxa : x = a
        · have e : (x == a) = true := by rw [hxa]; exact beq_self_eq_true a
          rw [List.indexOf_cons, e] at h
          have hxb : (x == b) = false := by
            cases hq : (x == b) with
            | false => rfl
            | true =>
                rw [List.indexOf_cons, hq] at h
                simp at h
          rw [List.indexOf_cons, e, List.indexOf_cons, hxb]
          simp
        · have e : (x == a) = false := beq_eq_false_iff_ne.mpr hxa
          by_cases hxb : x = b
          · have eb : (x == b) = true := by rw [hxb]; exact beq_self_eq_true b
            rw [List.indexOf_cons, e, List.indexOf_cons, eb] at h
            simp only [cond] at h
            exact absurd h (Nat.not_lt_zero _)
          · have eb : (x == b) = false := beq_eq_false_iff_ne.mpr hxb
            rw [List.indexOf_cons, e, List.indexOf_cons, eb] at h
            simp only [cond] at h
            have h2 : (l.filter q).indexOf a < (l.filter q).indexOf b :=
              Nat.lt_of_succ_lt_succ h
            rw [List.indexOf_cons, e, List.indexOf_cons, eb]
            simp only [cond]
            exact Nat.succ_lt_succ (ih h2)
      · have hxa : x ≠ a := fun hc => hx (hc ▸ ha)
        have hxb : x ≠ b := fun hc => hx (hc ▸ hb)
        have hqx : q x = false := Bool.eq_false_iff.mpr hx
        rw [List.filter_cons, hqx, if_neg Bool.false_ne_true] at h
        rw [List.indexOf_cons, beq_eq_false_iff_ne.mpr hxa,
          List.indexOf_cons, beq_eq_false_iff_ne.mpr hxb]
        simp only [cond]
        exact Nat.succ_lt_succ (ih h)

/-- The outputs of `keepFirst` come in strictly increasing order of their
first occurrence in the input stream. -/
theorem keepFirst_pairwise (l : List Str) :
    (keepFirst l).Pairwise (fun a b => l.indexOf a < l.indexOf b) := by
  induction l using keepFirst.induct with
  | case1 => rw [keepFirst_nil]; exact List.Pairwise.nil
  | case2 t ts ih =>
      rw [keepFirst_cons]
      refine List.Pairwise.cons ?_ ?_
      · intro b hb
        have hbf := keepFirst_subset _ b hb
        have hpb := (List.mem_filter.mp hbf).2
        have hbt : t ≠ b := by
          intro hc
          rw [← hc] at hpb
          simp at hpb
        rw [List.indexOf_cons, beq_self_eq_true t,
          List.indexOf_cons, beq_eq_false_iff_ne.mpr hbt]
        simp
      · refine List.Pairwise.imp_of_mem ?_ ih
        intro a b haK hbK hab
        have haf := keepFirst_subset _ a haK
        have hbf := keepFirst_subset _ b hbK
        have hts := indexOf_filter_lt _ ts a b
          (List.mem_filter.mp haf).2 (List.mem_filter.mp hbf).2 hab
        have hta : t ≠ a := by
          intro hc
          have := (List.mem_filter.mp haf).2
          rw [← hc] at this
          simp at this
        have htb : t ≠ b := by
          intro hc
          have := (List.mem_filter.mp hbf).2
          rw [← hc] at this
          simp at this
        rw [List.indexOf_cons, beq_eq_false_iff_ne.mpr hta,
          List.indexOf_cons, beq_eq_false_iff_ne.mpr htb]
        simp only [cond]
        exact Nat.succ_lt_succ hts

/-- Members of the unique-keys loop come from the input and avoid the
seen accumulator. -/
theorem uniqueFirstAux_mem_of (l : List Str) :
    ∀ seen a, a ∈ uniqueFirstAux l seen → a ∈ l ∧ a ∉ seen := by
  induction l with
  | nil => intro seen a ha; rw [uniqueFirstAux] at ha; simp at ha
  | cons b l ih =>
      intro seen a ha
      rw [uniqueFirstAux] at ha
      by_cases hc : seen.contains b = true
      · rw [if_pos hc] at ha
        have := ih seen a ha
        exact ⟨List.mem_cons_of_mem b this.1, this.2⟩
      · rw [if_neg hc] at ha
        rcases List.mem_cons.mp ha with h | h
        · subst h
          refine ⟨List.mem_cons_self a l, ?_⟩
          intro hmem
          exact hc (by simpa [List.contains] using hmem)
        · have := ih (b :: seen) a h
          refine ⟨List.mem_cons_of_mem b this.1, ?_⟩
          intro hmem
          exact this.2 (List.mem_cons_of_mem b hmem)

/-- Every input value reappears in the unique-keys loop unless already
seen. -/
theorem uniqueFirstAux_mem_iff (l : List Str) :
    ∀ seen a, a ∈ uniqueFirstAux l seen ↔ a ∈ l ∧ a ∉ seen := by
  intro seen a
  constructor
  · exact uniqueFirstAux_mem_of l seen a
  · intro ⟨hal, hans⟩
    induction l generalizing seen with
    | nil => simp at hal
    | cons b l ih =>
        rw [uniqueFirstAux]
        by_cases hc : seen.contains b = true
        · rw [if_pos hc]
          rcases List.mem_cons.mp hal with h | h
          · subst h
            exact absurd (by simpa [List.contains] using hc) hans
          · exact ih seen h hans
        · rw [if_neg hc]
          rcases List.mem_cons.mp hal with h | h
          · subst h
            exact List.mem_cons_self a _
          · by_cases hab : a = b
            · subst hab
              exact List.mem_cons_self a _
            · refine List.mem_cons_of_mem b (ih (b :: seen) h ?_)
              intro hmem
              rcases List.mem_cons.mp hmem with h2 | h2
              · exact hab h2
              · exact hans h2

/-- The unique-keys loop never repeats a value. -/
theorem uniqueFirstAux_nodup (l : List Str) :
    ∀ seen, (uniqueFirstAux l seen).Nodup := by
  induction l with
  | nil => intro seen; rw [uniqueFirstAux]; exact List.nodup_nil
  | cons b l ih =>
      intro seen
      rw [uniqueFirstAux]
      by_cases hc : seen.contains b = true
      · rw [if_pos hc]; exact ih seen
      · rw [if_neg hc]
        refine List.nodup_cons.mpr ⟨?_, ih (b :: seen)⟩
        intro hmem
        exact (uniqueFirstAux_mem_of l (b :: seen) b hmem).2 (List.mem_cons_self b seen)

/-- Membership of `uniqueFirst` is membership of the input. -/
theorem uniqueFirst_mem (l : List Str) (a : Str) :
    a ∈ uniqueFirst l ↔ a ∈ l := by
  rw [uniqueFirst, uniqueFirstAux_mem_iff]
  simp

/-- `uniqueFirst` never repeats a value. -/
theorem uniqueFirst_nodup (l : List Str) : (uniqueFirst l).Nodup :=
  uniqueFirstAux_nodup l []

/-- When the mapped keys of a list are distinct, at most one element
matches any given key. -/
theorem length_filter_key_le_one {α : Type} (l : List α) (f : α → Str) (k : Str)
    (h : (l.map f).Nodup) : (l.filter (fun x => f x == k)).length ≤ 1 := by
  induction l with
  | nil => simp
  | cons a l ih =>
      rw [List.map_cons, List.nodup_cons] at h
      rw [List.filter_cons]
      by_cases hk : (f a == k) = true
      · rw [if_pos hk]
        have hfa : f a = k := eq_of_beq hk
        have : l.filter (fun x => f x == k) = [] := by
          rw [List.filter_eq_nil_iff]
          intro x hx hbeq
          have : f x = k := eq_of_beq hbeq
          exact h.1 (List.mem_map.mpr ⟨x, hx, this.trans hfa.symm⟩)
        rw [this]
        simp
      · rw [if_neg hk]
        exact ih h.2

/-- Any status the pipeline assigns is OK or Not-found. -/
theorem statusOf_mem (o : Option Str) :
    statusOf o = statusOK ∨ statusOf o = statusNotFound := by
  cases o with
  | none => right; rfl
  | some s =>
      rw [statusOf]
      by_cases h : (strip s == []) = true
      · rw [if_pos h]; right; rfl
      · rw [if_neg h]; left; rfl

/-- The status is OK exactly when the cell is bound and non-blank after
trimming. -/
theorem statusOf_eq_ok_iff (o : Option Str) :
    statusOf o = statusOK ↔ ∃ s, o = some s ∧ strip s ≠ [] := by
  cases o with
  | none =>
      constructor
      · intro h; exact absurd h (by decide)
      · intro ⟨s, hs, _⟩; cases hs
  | some s =>
      rw [statusOf]
      by_cases h : (strip s == []) = true
      · rw [if_pos h]
        constructor
        · intro hc; exact absurd hc (by decide)
        · intro ⟨u, hu, hne⟩
          cases hu
          exact absurd (by simpa using h) hne
      · rw [if_neg h]
        constructor
        · intro _
          exact ⟨s, rfl, fun hc => h (by simp [hc])⟩
        · intro _; rfl

/-- Successful resolution is the display map of a successful frame whose
MLP column exists. -/
theorem resolve_ok_shape (models : List Str) (cat : Catalog) (b : Bool)
    (l : List ResultEntry) (h : resolve models cat b = .ok l) :
    ∃ fr, resolveFrame models cat b = .ok fr ∧ fr.hasMLP = true ∧
      l = fr.rows.map (fun r =>
        ⟨r.model.getD r.modelIn, r.mlp, r.descr, statusOf r.mlp⟩) := by
  unfold resolve at h
  cases hf : resolveFrame models cat b with
  | error e => rw [hf] at h; exact absurd h (by simp [Except.bind])
  | ok fr =>
      rw [hf] at h
      refine ⟨fr, rfl, ?_⟩
      simp only [Except.bind] at h
      unfold finalize at h
      cases hm : fr.hasMLP with
      | false => rw [hm] at h; exact absurd h (by simp)
      | true =>
          rw [hm] at h
          simp only [Bool.not_true, Bool.false_eq_true, if_false] at h
          cases h
          exact ⟨rfl, rfl⟩

/-- Every row the exact merge produces for one token carries that token
and its normalized key. -/
theorem exactMergeRow_fields (cat : Catalog) (m : Str) :
    ∀ r ∈ exactMergeRow cat m, r.modelIn = m ∧ r.key = normKey m := by
  intro r hr
  unfold exactMergeRow at hr
  by_cases he : (cat.rows.filter (fun r => normKey r.model == normKey m)).isEmpty = true
  · rw [if_pos he] at hr
    rcases List.mem_singleton.mp hr with rfl
    exact ⟨rfl, rfl⟩
  · rw [if_neg he] at hr
    rcases List.mem_map.mp hr with ⟨c, _, hc⟩
    cases hc
    exact ⟨rfl, rfl⟩

/-- When the catalog has no duplicate normalized keys, the exact merge
produces exactly one row per token, keyed by its normalized form. -/
theorem exactMergeRow_map_key (cat : Catalog) (m : Str)
    (hnd : (cat.rows.map (fun r => normKey r.model)).Nodup) :
    (exactMergeRow cat m).map (fun r => r.key) = [normKey m] := by
  unfold exactMergeRow
  by_cases he : (cat.rows.filter (fun r => normKey r.model == normKey m)).isEmpty = true
  · rw [if_pos he]; rfl
  · rw [if_neg he]
    have hle := length_filter_key_le_one cat.rows (fun r => normKey r.model)
      (normKey m) hnd
    have hne : (cat.rows.filter (fun r => normKey r.model == normKey m)).length ≠ 0 := by
      intro hc
      exact he (by rw [List.isEmpty_iff, ← List.length_eq_zero]; exact hc)
    have h1 : (cat.rows.filter (fun r => normKey r.model == normKey m)).length = 1 :=
      Nat.le_antisymm hle (Nat.one_le_iff_ne_zero.mpr hne)
    rcases List.length_eq_one.mp h1 with ⟨r, hr⟩
    rw [hr]
    rfl

/-- Keys of the merged frame, duplicate-free catalog case. -/
theorem exactMerge_map_key (models : List Str) (cat : Catalog)
    (hnd : (cat.rows.map (fun r => normKey r.model)).Nodup) :
    (exactMerge models cat).rows.map (fun r => r.key) = models.map normKey := by
  unfold exactMerge
  induction models with
  | nil => rfl
  | cons m ms ih =>
      rw [List.flatMap_cons, List.map_append, List.map_cons,
        exactMergeRow_map_key cat m hnd, ih]
      rfl

/-- Keys of rows built by `filterMap`, when the builder tags each output
with its input key, form a sublist of the inputs. -/
theorem filterMap_key_sublist (ks : List Str) (g : Str → Option CRow)
    (hg : ∀ k r, g k = some r → r.key = k) :
    List.Sublist ((ks.filterMap g).map (fun c => c.key)) ks := by
  induction ks with
  | nil => simp
  | cons k ks ih =>
      rw [List.filterMap_cons]
      cases hgk : g k with
      | none => exact List.Sublist.cons k ih
      | some r =>
          rw [List.map_cons, hg k r hgk]
          exact List.Sublist.cons₂ k ih

/-- The keys of `contains_df` are distinct. -/
theorem containsRows_key_nodup (cat : Catalog) (fr : Frame) :
    ((containsRowsOf cat fr).map (fun c => c.key)).Nodup := by
  unfold containsRowsOf
  refine List.Sublist.nodup (filterMap_key_sublist _ _ ?_)
    (uniqueFirst_nodup _)
  intro k r hr
  cases hc : containsHit cat k with
  | none => rw [hc] at hr; cases hr
  | some c =>
      rw [hc] at hr
      cases hr
      rfl

/-- Mapping the key over a flatMap whose per-row output is a single row
with the same key gives back the key column. -/
theorem flatMap_map_key (rows : List FRow) (g : FRow → List FRow)
    (hg : ∀ q ∈ rows, (g q).map (fun r => r.key) = [q.key]) :
    ((rows.flatMap g).map (fun r => r.key)) = rows.map (fun r => r.key) := by
  induction rows with
  | nil => rfl
  | cons q rows ih =>
      rw [List.flatMap_cons, List.map_append, hg q (List.mem_cons_self q rows),
        List.map_cons]
      rw [ih (fun p hp => hg p (List.mem_cons_of_mem q hp))]
      rfl

/-- The contains fallback never changes the key column (nor the row
count) of the frame. -/
theorem containsStep_ok_map_key (cat : Catalog) (fr fr' : Frame)
    (h : containsStep cat fr = .ok fr') :
    fr'.rows.map (fun r => r.key) = fr.rows.map (fun r => r.key) := by
  unfold containsStep at h
  cases hm : fr.hasMLP with
  | false => rw [hm] at h; exact absurd h (by simp)
  | true =>
      rw [hm] at h
      simp only [Bool.not_true, Bool.false_eq_true, if_false] at h
      by_cases he : (fr.rows.filter (fun r => mlpMissing r.mlp)).isEmpty = true
      · rw [if_pos he] at h; cases h; rfl
      · rw [if_neg he] at h
        by_cases hce : (containsRowsOf cat fr).isEmpty = true
        · rw [if_pos hce] at h; cases h; rfl
        · rw [if_neg hce] at h
          cases h
          refine flatMap_map_key _ _ ?_
          intro q _
          by_cases hq : ((containsRowsOf cat fr).filter
              (fun c => c.key == q.key)).isEmpty = true
          · rw [if_pos hq]; rfl
          · rw [if_neg hq]
            have hle := length_filter_key_le_one (containsRowsOf cat fr)
              (fun c => c.key) q.key (containsRows_key_nodup cat fr)
            have hne : ((containsRowsOf cat fr).filter
                (fun c => c.key == q.key)).length ≠ 0 := by
              intro hc
              exact hq (by rw [List.isEmpty_iff, ← List.length_eq_zero]; exact hc)
            have h1 := Nat.le_antisymm hle (Nat.one_le_iff_ne_zero.mpr hne)
            rcases List.length_eq_one.mp h1 with ⟨c, hc⟩
            rw [hc]
            rfl

/-- Keys of a successfully resolved frame are the normalized query keys,
in order, when the catalog has no duplicate normalized keys. -/
theorem resolveFrame_ok_map_key (models : List Str) (cat : Catalog) (b : Bool)
    (fr : Frame) (h : resolveFrame models cat b = .ok fr)
    (hnd : (cat.rows.map (fun r => normKey r.model)).Nodup) :
    fr.rows.map (fun r => r.key) = models.map normKey := by
  unfold resolveFrame at h
  cases b with
  | false =>
      simp only [Bool.false_eq_true, if_false] at h
      cases h
      exact exactMerge_map_key models cat hnd
  | true =>
      simp only [if_true] at h
      rw [containsStep_ok_map_key cat _ fr h]
      exact exactMerge_map_key models cat hnd

end Lemmas

/-- C1: the claim says the contains fallback binds only still-unresolved
keys and overwrites nothing, but the code evaluated at `catC1` with query
tokens PRD-1 and Q under `allowContains` drops the exact binding of
PRD-1 (M1, D1, OK without the fallback) and reports it Not-found, because
the fallback re-merge discards the exact-match columns of every row. -/
theorem claim_C1_contains_drops_exact :
    resolve ["PRD-1".toList, "Q".toList] catC1 true =
      .ok [⟨"PRD-1".toList, none, none, statusNotFound⟩,
        ⟨"XQX".toList, some "M2".toList, some "D2".toList, statusOK⟩] ∧
    resolve ["PRD-1".toList, "Q".toList] catC1 false =
      .ok [⟨"PRD-1".toList, some "M1".toList, some "D1".toList, statusOK⟩,
        ⟨"Q".toList, none, none, statusNotFound⟩] :=
  ⟨rfl, rfl⟩

/-- C6: the claim says lookups against a catalog without the optional MLP
and Description columns still produce ResultEntries with blank cells, but
the code fails: catalog load itself succeeds, and then the pipeline
raises AttributeError at the status step (plain lookup) or KeyError at
the missing-mask step (contains lookup). -/
theorem claim_C6_missing_columns_crash :
    load_catalog srcC6 = .ok catC6 ∧
    resolve ["PRD-1".toList] catC6 false = .error .attributeErrorStrApply ∧
    resolve ["PRD-1".toList] catC6 true = .error .keyErrorMLP :=
  ⟨rfl, rfl, rfl⟩

/-- C7: no two parsed QueryKeys share a normalized form, and
`parse_models` is exactly the keep-first dedup of the clean token stream,
so the surface form kept for each normalized key is the first one
encountered and later duplicates produce no entries. -/
theorem claim_C7_dedup (raw : Str) :
    ((parse_models raw).map normKey).Nodup ∧
      parse_models raw = keepFirst (cleanTokens raw) := by
  refine ⟨?_, parse_eq_keepFirst raw⟩
  rw [parse_eq_keepFirst raw]
  have hpt : ∀ t ∈ keepFirst (cleanTokens raw), normKey t = upper t := by
    intro t ht
    have htc := keepFirst_subset _ t ht
    unfold cleanTokens at htc
    have hmem := (List.mem_filter.mp htc).1
    rcases List.mem_map.mp hmem with ⟨p, _, hp⟩
    rw [normKey, ← hp, strip_strip]
  rw [List.map_congr_left hpt]
  exact keepFirst_upper_nodup _

/-- C9: a whitespace-only (in particular empty) input parses to the empty
token list; `parse_models` is a total function, so no error is raised. -/
theorem claim_C9_empty_input (raw : Str) (h : ∀ c ∈ raw, isSpace c = true) :
    parse_models raw = [] := by
  unfold parse_models
  rw [if_pos ((strip_eq_nil_iff raw).mpr h)]

/-- C9 witness: the empty input and a concrete whitespace-only input both
parse to the empty list. -/
theorem claim_C9_witness :
    parse_models [] = [] ∧ parse_models [' ', '\t', '\n'] = [] :=
  ⟨claim_C9_empty_input [] (by decide),
   claim_C9_empty_input [' ', '\t', '\n'] (by decide)⟩

/-- C10: the claim requires the column to be named `model`
(case-sensitively), but the code requires `Model`: a source whose
column is literally named `model` is rejected by `load_catalog`. -/
theorem claim_C10_cex :
    srcC10.cols.contains "model".toList = true ∧
      load_catalog srcC10 = .error .valueErrorModelColumn :=
  ⟨rfl, rfl⟩

/-- C10 (amended): catalog load fails with the schema ValueError exactly
when the source lacks a column named `Model` (matched case-sensitively);
with that column present, load succeeds. -/
theorem claim_C10_amended (src : RawTable) :
    (load_catalog src = .error .valueErrorModelColumn ↔
      src.cols.contains modelCol = false) ∧
    ((∃ c, load_catalog src = .ok c) ↔ src.cols.contains modelCol = true) := by
  unfold load_catalog
  by_cases h : src.cols.contains modelCol = true
  · rw [if_pos h]
    constructor
    · constructor
      · intro hc; cases hc
      · intro hc; rw [h] at hc; cases hc
    · exact ⟨fun _ => h, fun _ => ⟨_, rfl⟩⟩
  · have hf : src.cols.contains modelCol = false := Bool.eq_false_iff.mpr h
    rw [if_neg h]
    constructor
    · exact ⟨fun _ => hf, fun _ => rfl⟩
    · constructor
      · intro ⟨c, hc⟩; cases hc
      · intro hc; rw [hf] at hc; cases hc

/-- C2 counterexample: one query key against a catalog with two rows of
the same normalized key produces two ResultEntries, not one — the left
merge duplicates the query row, refuting the exactly-len(keys) claim. -/
theorem claim_C2_cex :
    resolve ["A".toList] catC2dup false =
      .ok [⟨"A".toList, some "M1".toList, some "D1".toList, statusOK⟩,
        ⟨"a".toList, some "M2".toList, some "D2".toList, statusOK⟩] ∧
      (["A".toList] : List Str).length = 1 :=
  ⟨rfl, rfl⟩

/-- C2 (amended): when the catalog has no duplicate normalized keys and
the pipeline succeeds, `resolve` produces exactly one ResultEntry per
query key, each with status OK or Not-found. -/
theorem claim_C2_amended (models : List Str) (cat : Catalog) (b : Bool)
    (l : List ResultEntry) (h : resolve models cat b = .ok l)
    (hnd : (cat.rows.map (fun r => normKey r.model)).Nodup) :
    l.length = models.length ∧
      ∀ e ∈ l, e.status = statusOK ∨ e.status = statusNotFound := by
  obtain ⟨fr, hfr, _, hl⟩ := resolve_ok_shape models cat b l h
  constructor
  · rw [hl, List.length_map]
    have hk := congrArg List.length (resolveFrame_ok_map_key models cat b fr hfr hnd)
    simpa using hk
  · intro e he
    rw [hl] at he
    rcases List.mem_map.mp he with ⟨r, _, rfl⟩
    exact statusOf_mem r.mlp

/-- C2 witness: the amended totality theorem applied to a concrete
one-key lookup against a duplicate-free catalog. -/
theorem claim_C2_witness :
    ([⟨"A".toList, some "M1".toList, some "D1".toList, statusOK⟩] :
      List ResultEntry).length = (["A".toList] : List Str).length :=
  (claim_C2_amended ["A".toList] catC2w false
    [⟨"A".toList, some "M1".toList, some "D1".toList, statusOK⟩]
    rfl (by decide)).1

/-- C3 counterexample: with two catalog rows normalizing to the same key,
the later duplicate row is not shadowed — its values (M2, D2) appear in
the second ResultEntry of a one-key lookup. -/
theorem claim_C3_cex :
    resolve ["B".toList] catC3dup false =
      .ok [⟨"B".toList, some "M1".toList, some "D1".toList, statusOK⟩,
        ⟨"b".toList, some "M2".toList, some "D2".toList, statusOK⟩] :=
  rfl

/-- C3 (amended): exact lookup of one key returns one ResultEntry per
catalog row whose model normalizes to that key, in catalog order, with
that row's values; duplicate rows are not shadowed. -/
theorem claim_C3_amended (cat : Catalog) (m : Str)
    (hm : cat.hasMLP = true)
    (hne : cat.rows.filter (fun r => normKey r.model == normKey m) ≠ []) :
    resolve [m] cat false =
      .ok ((cat.rows.filter (fun r => normKey r.model == normKey m)).map
        (fun r => ⟨r.model, some r.mlp,
          if cat.hasDescr then some r.descr else none,
          statusOf (some r.mlp)⟩)) := by
  unfold resolve resolveFrame
  simp only [Bool.false_eq_true, if_false, Except.bind]
  unfold finalize
  have hfm : (exactMerge [m] cat).hasMLP = true := hm
  rw [hfm]
  simp only [Bool.not_true, Bool.false_eq_true, if_false]
  congr 1
  show (exactMerge [m] cat).rows.map _ = _
  unfold exactMerge
  simp only [List.flatMap_cons, List.flatMap_nil, List.append_nil]
  unfold exactMergeRow
  have he : ¬ (cat.rows.filter (fun r => normKey r.model == normKey m)).isEmpty = true := by
    rw [List.isEmpty_iff]; exact hne
  rw [if_neg he, List.map_map]
  apply List.map_congr_left
  intro r _
  simp only [Function.comp, hm, if_true]
  rfl

/-- C3 witness: the amended theorem applied to the duplicate catalog,
exhibiting both duplicate rows in the output. -/
theorem claim_C3_witness :
    resolve ["B".toList] catC3dup false =
      .ok ((catC3dup.rows.filter
          (fun r => normKey r.model == normKey "B".toList)).map
        (fun r => ⟨r.model, some r.mlp,
          if catC3dup.hasDescr then some r.descr else none,
          statusOf (some r.mlp)⟩)) :=
  claim_C3_amended catC3dup "B".toList rfl (by decide)

/-- C8: tokens that survive dedup appear in `parse_models` output in
strictly increasing order of their first occurrence in the clean token
stream of the raw input; and on a duplicate-free catalog a successful
`resolve` is the in-order display map of a frame whose key column is
exactly the normalized query keys in input order. -/
theorem claim_C8_order :
    (∀ raw : Str, (parse_models raw).Pairwise
      (fun a b => (cleanTokens raw).indexOf a < (cleanTokens raw).indexOf b)) ∧
    (∀ (models : List Str) (cat : Catalog) (b : Bool) (fr : Frame)
      (l : List ResultEntry),
      resolveFrame models cat b = .ok fr → resolve models cat b = .ok l →
      (cat.rows.map (fun r => normKey r.model)).Nodup →
      fr.rows.map (fun r => r.key) = models.map normKey ∧
        l = fr.rows.map (fun r =>
          ⟨r.model.getD r.modelIn, r.mlp, r.descr, statusOf r.mlp⟩)) := by
  constructor
  · intro raw
    rw [parse_eq_keepFirst]
    exact keepFirst_pairwise _
  · intro models cat b fr l hfr hl hnd
    obtain ⟨fr', hfr', _, hl'⟩ := resolve_ok_shape models cat b l hl
    rw [hfr] at hfr'
    cases hfr'
    exact ⟨resolveFrame_ok_map_key models cat b fr hfr hnd, hl'⟩

/-- C8 witness: the order theorem applied to a concrete two-token input
and a concrete one-key lookup. -/
theorem claim_C8_witness :
    (parse_models "b,a".toList).Pairwise
      (fun x y => (cleanTokens "b,a".toList).indexOf x <
        (cleanTokens "b,a".toList).indexOf y) ∧
    (exactMerge ["A".toList] catC8w).rows.map (fun r => r.key) =
      (["A".toList] : List Str).map normKey :=
  ⟨claim_C8_order.1 "b,a".toList,
   (claim_C8_order.2 ["A".toList] catC8w false (exactMerge ["A".toList] catC8w)
     [⟨"A".toList, some "M1".toList, some "D1".toList, statusOK⟩]
     rfl rfl (by decide)).1⟩

/-- C4 counterexample: the key A has an exact catalog row (the second row
of `catC4x`, with a blank MLP), yet under `allowContains` the code
rebinds it from the substring-matching first row (M9, D9, OK) — the
contains fallback does reconsider keys with an exact catalog row. -/
theorem claim_C4_cex :
    resolve ["A".toList] catC4x true =
      .ok [⟨"XAX".toList, some "M9".toList, some "D9".toList, statusOK⟩] :=
  rfl

/-- C4 (amended): the contains scan is applied exactly to the normalized
keys whose MLP after exact lookup is unbound or blank after trimming — so
it also runs for keys that have an exact catalog row whose MLP cell is
blank, not only for keys with no exact catalog row. -/
theorem claim_C4_amended (models : List Str) (cat : Catalog) (k : Str)
    (hm : cat.hasMLP = true) :
    k ∈ missingKeysOf (exactMerge models cat) ↔
      ∃ m ∈ models, normKey m = k ∧
        ((∀ r ∈ cat.rows, normKey r.model ≠ k) ∨
         (∃ r ∈ cat.rows, normKey r.model = k ∧ strip r.mlp = [])) := by
  unfold missingKeysOf
  rw [uniqueFirst_mem, List.mem_map]
  constructor
  · rintro ⟨row, hrow, hkey⟩
    rw [List.mem_filter] at hrow
    obtain ⟨hmem, hmiss⟩ := hrow
    rw [show (exactMerge models cat).rows = models.flatMap (exactMergeRow cat)
      from rfl, List.mem_flatMap] at hmem
    obtain ⟨m, hmM, hrowm⟩ := hmem
    refine ⟨m, hmM, ?_⟩
    unfold exactMergeRow at hrowm
    by_cases he : (cat.rows.filter (fun r => normKey r.model == normKey m)).isEmpty = true
    · rw [if_pos he] at hrowm
      rcases List.mem_singleton.mp hrowm with rfl
      have hk2 : normKey m = k := hkey
      refine ⟨hk2, Or.inl ?_⟩
      intro r hr hcon
      rw [List.isEmpty_iff, List.filter_eq_nil_iff] at he
      refine he r hr ?_
      rw [hcon, ← hk2]
      exact beq_self_eq_true _
    · rw [if_neg he] at hrowm
      rcases List.mem_map.mp hrowm with ⟨c, hc, rfl⟩
      have hk2 : normKey m = k := hkey
      rw [List.mem_filter] at hc
      obtain ⟨hcrows, hcbeq⟩ := hc
      have hceq : normKey c.model = normKey m := eq_of_beq hcbeq
      refine ⟨hk2, Or.inr ⟨c, hcrows, hceq.trans hk2, ?_⟩⟩
      have hmiss2 : mlpMissing (if cat.hasMLP then some c.mlp else none) = true := hmiss
      rw [hm, if_pos rfl] at hmiss2
      simpa [mlpMissing] using hmiss2
  · rintro ⟨m, hmM, hk, hdisj⟩
    rcases hdisj with hnone | ⟨r, hrcat, hrk, hblank⟩
    · refine ⟨⟨m, normKey m, none, none, none⟩, ?_, hk⟩
      rw [List.mem_filter]
      constructor
      · rw [show (exactMerge models cat).rows = models.flatMap (exactMergeRow cat)
          from rfl, List.mem_flatMap]
        refine ⟨m, hmM, ?_⟩
        unfold exactMergeRow
        have he : (cat.rows.filter (fun r => normKey r.model == normKey m)).isEmpty
            = true := by
          rw [List.isEmpty_iff, List.filter_eq_nil_iff]
          intro r hr hbeq
          exact hnone r hr (by rw [eq_of_beq hbeq, hk])
        rw [if_pos he]
        exact List.mem_singleton_self _
      · rfl
    · refine ⟨⟨m, normKey m, some r.model,
        if cat.hasMLP then some r.mlp else none,
        if cat.hasDescr then some r.descr else none⟩, ?_, hk⟩
      rw [List.mem_filter]
      have hrhit : r ∈ cat.rows.filter (fun r => normKey r.model == normKey m) := by
        rw [List.mem_filter]
        refine ⟨hrcat, ?_⟩
        rw [hrk, ← hk]
        exact beq_self_eq_true _
      constructor
      · rw [show (exactMerge models cat).rows = models.flatMap (exactMergeRow cat)
          from rfl, List.mem_flatMap]
        refine ⟨m, hmM, ?_⟩
        unfold exactMergeRow
        have he : ¬ (cat.rows.filter (fun r => normKey r.model == normKey m)).isEmpty
            = true := by
          rw [List.isEmpty_iff]
          intro hc
          rw [hc] at hrhit
          cases hrhit
        rw [if_neg he]
        exact List.mem_map.mpr ⟨r, hrhit, rfl⟩
      · show mlpMissing (if cat.hasMLP then some r.mlp else none) = true
        rw [hm, if_pos rfl]
        simp [mlpMissing, hblank]

/-- C4 witness: the amended scan characterization applied to `catC4x`:
the key A, whose exact row has a blank MLP, is among the scanned keys. -/
theorem claim_C4_witness :
    "A".toList ∈ missingKeysOf (exactMerge ["A".toList] catC4x) :=
  (claim_C4_amended ["A".toList] catC4x "A".toList rfl).mpr (by decide)

/-- C5 counterexample: the key B has an exact catalog row whose MLP is
whitespace-only, yet its ResultEntry has status OK — under
`allowContains` the fallback rebound it from the substring-matching row
YBY, so a blank exact MLP does not always yield Not-found. -/
theorem claim_C5_cex :
    resolve ["B".toList] catC5x true =
      .ok [⟨"YBY".toList, some "M7".toList, some "D7".toList, statusOK⟩] :=
  rfl

/-- C5 (amended): a ResultEntry has status OK exactly when the MLP it
ends up bound to is present and non-empty after trimming; and a key whose
exact catalog rows all have blank MLP values gets status Not-found when
the contains fallback is off (with the fallback on it may be rebound, as
the counterexample shows). -/
theorem claim_C5_status :
    (∀ (models : List Str) (cat : Catalog) (b : Bool) (l : List ResultEntry),
      resolve models cat b = .ok l →
      ∀ e ∈ l, (e.status = statusOK ↔ ∃ s, e.mlp = some s ∧ strip s ≠ [])) ∧
    (∀ (m : Str) (cat : Catalog) (l : List ResultEntry),
      resolve [m] cat false = .ok l →
      (∃ r ∈ cat.rows, normKey r.model = normKey m) →
      (∀ r ∈ cat.rows, normKey r.model = normKey m → strip r.mlp = []) →
      ∀ e ∈ l, e.status = statusNotFound) := by
  constructor
  · intro models cat b l h e he
    obtain ⟨fr, _, _, hl⟩ := resolve_ok_shape models cat b l h
    rw [hl] at he
    rcases List.mem_map.mp he with ⟨r, _, rfl⟩
    exact statusOf_eq_ok_iff r.mlp
  · intro m cat l h hex hbl e he
    obtain ⟨fr, hfr, hm, hl⟩ := resolve_ok_shape [m] cat false l h
    unfold resolveFrame at hfr
    simp only [Bool.false_eq_true, if_false] at hfr
    cases hfr
    rw [hl] at he
    rcases List.mem_map.mp he with ⟨r, hr, rfl⟩
    have hm2 : cat.hasMLP = true := hm
    have hr2 : r ∈ exactMergeRow cat m := by
      simpa [exactMerge, List.flatMap_cons, List.flatMap_nil] using hr
    unfold exactMergeRow at hr2
    obtain ⟨r0, hr0cat, hr0k⟩ := hex
    have he2 : ¬ (cat.rows.filter (fun r => normKey r.model == normKey m)).isEmpty
        = true := by
      rw [List.isEmpty_iff]
      intro hc
      have hin : r0 ∈ cat.rows.filter (fun r => normKey r.model == normKey m) := by
        rw [List.mem_filter]
        exact ⟨hr0cat, by rw [hr0k]; exact beq_self_eq_true _⟩
      rw [hc] at hin
      cases hin
    rw [if_neg he2] at hr2
    rcases List.mem_map.mp hr2 with ⟨c, hc, rfl⟩
    have hcm := List.mem_filter.mp hc
    have hcb : strip c.mlp = [] := hbl c hcm.1 (eq_of_beq hcm.2)
    show statusOf (if cat.hasMLP then some c.mlp else none) = statusNotFound
    rw [hm2, if_pos rfl]
    simp [statusOf, hcb]

/-- C5 witness: the status rule applied to a concrete successful lookup,
and the blank-MLP rule applied to `catC5w` without the fallback. -/
theorem claim_C5_witness :
    ((⟨"A".toList, some "M1".toList, some "D1".toList, statusOK⟩ :
        ResultEntry).status = statusOK ↔
      ∃ s, (⟨"A".toList, some "M1".toList, some "D1".toList, statusOK⟩ :
        ResultEntry).mlp = some s ∧ strip s ≠ []) ∧
    (⟨"A".toList, some " ".toList, some [], statusNotFound⟩ :
      ResultEntry).status = statusNotFound :=
  ⟨claim_C5_status.1 ["A".toList] catC2w false
      [⟨"A".toList, some "M1".toList, some "D1".toList, statusOK⟩] rfl
      _ (List.mem_singleton_self _),
   claim_C5_status.2 "A".toList catC5w
      [⟨"A".toList, some " ".toList, some [], statusNotFound⟩] rfl
      (by decide) (by decide) _ (List.mem_singleton_self _)⟩

end MLP
